import Mathlib

/-!
Shallow embedding of the cryptographic trait layer in `src/traits/mod.rs` of
the Nova repository: group-element compression, multi-scalar multiplication,
the native and circuit-mode random-oracle (hash) state machines, transcript
append and challenge derivation, and the absorb/append adapters.

The crate under `src/` declares the traits and the two
`AppendToTranscriptTrait` adapter `impl`s; those adapters are embedded
directly from the source.  The trait implementations (concrete curve, hash
function, transcript backend) live outside the crate, so they are modelled
from the specification, each such definition marked `Modelled from the spec:`.
-/

namespace Nova

/-- Base field of the model curve (modulus 13), standing in for `G::Base`. -/
abbrev Fq := Fin 13

/-- Scalar field of the model group (modulus 11), standing in for `G::Scalar`. -/
abbrev Fr := Fin 11

/-- Modelled from the spec: canonical fixed-width (two-byte, little-endian)
byte representation of a field element, the `to_repr` of the external `ff`
backend used by the adapter `impl`s. -/
def fieldRepr (v : Nat) : List Nat := [v % 256, v / 256 % 256]

/-- Modelled from the spec: a transcript is an append-only log of labelled
byte messages; this embeds the external `merlin::Transcript` as used through
`append_message`. -/
structure Transcript where
  log : List (List Nat × List Nat)
deriving DecidableEq

/-- Modelled from the spec: `Transcript::append_message` appends one labelled
message to the log. -/
def append_message (t : Transcript) (label msg : List Nat) : Transcript :=
  ⟨t.log ++ [(label, msg)]⟩

/-- `impl AppendToTranscriptTrait for F` (src/traits/mod.rs lines 178-182):
a field element appends its canonical byte representation under the label. -/
def append_to_transcript (x : Fq) (label : List Nat) (t : Transcript) : Transcript :=
  append_message t label (fieldRepr x.val)

/-- `impl AppendToTranscriptTrait for [F]` (src/traits/mod.rs lines 184-190):
a slice appends its elements one by one, in order, each under the same
label. -/
def append_to_transcript_slice (xs : List Fq) (label : List Nat) (t : Transcript) : Transcript :=
  xs.foldl (fun tr s => append_to_transcript s label tr) t

lemma append_to_transcript_slice_log (xs : List Fq) (label : List Nat) (t : Transcript) :
    (append_to_transcript_slice xs label t).log =
      t.log ++ xs.map (fun x => (label, fieldRepr x.val)) := by
  induction xs generalizing t with
  | nil => simp [append_to_transcript_slice]
  | cons x xs ih =>
    simp only [append_to_transcript_slice, List.foldl_cons, List.map_cons] at *
    rw [ih]
    simp [append_to_transcript, append_message, List.append_assoc]

lemma append_to_transcript_slice_append (xs ys : List Fq) (label : List Nat) (t : Transcript) :
    append_to_transcript_slice (xs ++ ys) label t =
      append_to_transcript_slice ys label (append_to_transcript_slice xs label t) := by
  simp [append_to_transcript_slice, List.foldl_append]

/-- Modelled from the spec: hash-function parameters (round constants),
the `Constants` associated type shared read-only between the native and the
circuit mode. -/
structure Constants where
  rc : List Fq
deriving DecidableEq

/-- Modelled from the spec: one application of the shared sponge permutation,
a round per round constant (cube the state and add the constant). -/
def permute (c : Constants) (x : Fq) : Fq :=
  c.rc.foldl (fun s k => s * s * s + k) x

/-- Modelled from the spec: the single parameterized sponge algorithm both
modes instantiate — absorb each input into the running state and permute. -/
def digest (c : Constants) (init : Fq) (inputs : List Fq) : Fq :=
  inputs.foldl (fun acc e => permute c (acc + e)) init

/-- Modelled from the spec: reduction of a base-field digest into the scalar
field (the field-swap extraction). -/
def toScalar (x : Fq) : Fr := ⟨x.val % 11, Nat.mod_lt _ (by decide)⟩

/-- Modelled from the spec: the native random-oracle state — fixed constants
plus the accumulated absorbed base-field elements (type `G::HashFunc`). -/
structure HashFunc where
  constants : Constants
  state : List Fq
deriving DecidableEq

/-- `HashFuncTrait::new`: initializes the hash function from constants. -/
def HashFunc.new (c : Constants) : HashFunc := ⟨c, []⟩

/-- `HashFuncTrait::absorb`: folds one base-field element into the state. -/
def HashFunc.absorb (h : HashFunc) (e : Fq) : HashFunc :=
  ⟨h.constants, h.state ++ [e]⟩

/-- Absorbing a sequence element by element, in order (the sequence form of
the absorb adapters). -/
def HashFunc.absorbList (h : HashFunc) (es : List Fq) : HashFunc :=
  es.foldl HashFunc.absorb h

/-- `HashFuncTrait::get_challenge` (`&self`): extract a scalar from the
current state without mutating it. -/
def HashFunc.get_challenge (h : HashFunc) : Fr :=
  toScalar (digest h.constants 0 h.state)

/-- `HashFuncTrait::get_hash` (`&self`): the digest accessor, same sponge
with a distinct initial capacity value. -/
def HashFunc.get_hash (h : HashFunc) : Fr :=
  toScalar (digest h.constants 1 h.state)

/-- Number of bits of a squeezed scalar (the scalar field fits in 4 bits). -/
def numBits : Nat := 4

/-- Little-endian bit-decomposition of a natural number to a fixed width. -/
def natToBits : Nat → Nat → List Bool
  | 0, _ => []
  | k + 1, n => (n % 2 == 1) :: natToBits k (n / 2)

/-- Little-endian decoding of a bit sequence back to a natural number. -/
def bitsToNat (bs : List Bool) : Nat :=
  bs.foldr (fun b acc => (if b then 1 else 0) + 2 * acc) 0

/-- An allocated field variable in the circuit (bellperson `AllocatedNum`),
modelled by the value it carries. -/
structure AllocatedNum where
  value : Fq
deriving DecidableEq

/-- An allocated single-bit variable (bellperson `AllocatedBit`), modelled by
the value it carries. -/
structure AllocatedBit where
  value : Bool
deriving DecidableEq

/-- The failure signal of the external constraint-system collaborator
(bellperson `SynthesisError`). -/
inductive SynthesisError where
  | assignmentMissing
  | unsatisfiable
deriving DecidableEq

/-- Modelled from the spec: the constraint-system capability — it can
allocate variables until a resource budget runs out, at which point it
reports its own construction failure. -/
structure CS where
  budget : Nat
  err : SynthesisError
deriving DecidableEq

/-- Allocate one bit variable in the constraint system, or report the
collaborator's failure when the budget is exhausted. -/
def CS.allocBit (cs : CS) (b : Bool) : Except SynthesisError (AllocatedBit × CS) :=
  match cs.budget with
  | 0 => .error cs.err
  | k + 1 => .ok (⟨b⟩, ⟨k, cs.err⟩)

/-- Allocate a sequence of bit variables, left to right, propagating the
first failure unchanged. -/
def allocBitList (cs : CS) (bs : List Bool) : Except SynthesisError (List AllocatedBit × CS) :=
  match bs with
  | [] => .ok ([], cs)
  | b :: rest =>
    match cs.allocBit b with
    | .error e => .error e
    | .ok (ab, cs1) =>
      match allocBitList cs1 rest with
      | .error e => .error e
      | .ok (rs, cs2) => .ok (ab :: rs, cs2)

/-- Modelled from the spec: the circuit-mode random-oracle state, mirroring
the native state exactly in structure and update order, over allocated
variables (type `G::HashFuncCircuit`). -/
structure HashFuncCircuit where
  constants : Constants
  state : List AllocatedNum
deriving DecidableEq

/-- `HashFuncCircuitTrait::new`: initializes the circuit hash function. -/
def HashFuncCircuit.new (c : Constants) : HashFuncCircuit := ⟨c, []⟩

/-- `HashFuncCircuitTrait::absorb`: folds one allocated value into the
state. -/
def HashFuncCircuit.absorb (h : HashFuncCircuit) (e : AllocatedNum) : HashFuncCircuit :=
  ⟨h.constants, h.state ++ [e]⟩

/-- Absorbing a sequence of allocated values element by element, in order. -/
def HashFuncCircuit.absorbList (h : HashFuncCircuit) (es : List AllocatedNum) : HashFuncCircuit :=
  es.foldl HashFuncCircuit.absorb h

/-- `HashFuncCircuitTrait::get_challenge`: run the same sponge algorithm over
the values of the allocated state and allocate the bit-decomposition of the
squeezed scalar in the constraint system, propagating its failure unchanged.
The state component of a successful result is the unchanged receiver. -/
def HashFuncCircuit.get_challenge (h : HashFuncCircuit) (cs : CS) :
    Except SynthesisError (List AllocatedBit × CS × HashFuncCircuit) :=
  match allocBitList cs
      (natToBits numBits (toScalar (digest h.constants 0 (h.state.map AllocatedNum.value))).val) with
  | .error e => .error e
  | .ok (bs, cs1) => .ok (bs, cs1, h)

/-- `HashFuncCircuitTrait::get_hash`: the digest accessor of the circuit
mode, same sponge with the distinct initial capacity value. -/
def HashFuncCircuit.get_hash (h : HashFuncCircuit) (cs : CS) :
    Except SynthesisError (List AllocatedBit × CS × HashFuncCircuit) :=
  match allocBitList cs
      (natToBits numBits (toScalar (digest h.constants 1 (h.state.map AllocatedNum.value))).val) with
  | .error e => .error e
  | .ok (bs, cs1) => .ok (bs, cs1, h)

/-- Modelled from the spec: the curve equation of the model group,
y^2 = x^3 + 3 over the base field. -/
def validPoint : Option (Fq × Fq) → Bool
  | none => true
  | some (x, y) => y * y == x * x * x + (3 : Fq)

/-- A group element (`G: Group`): either the point at infinity (`none`) or a
valid affine point. -/
abbrev GroupElement := {q : Option (Fq × Fq) // validPoint q = true}

/-- Modelled from the spec: the canonical fixed-size compressed encoding —
one coordinate word (4 bits suffice for the model field), a sign/parity
indicator, and an infinity flag (`G::CompressedGroupElement`).  Coordinate
values 13..15 are encodings of coordinates outside the field. -/
abbrev Compressed := Fin 16 × Bool × Bool

/-- The parity bit used as the sign of the y coordinate. -/
def yParity (y : Fq) : Bool := y.val % 2 == 1

/-- `Group::compress` (modelled from the spec): deterministic canonical
encoding — the identity is encoded with a zero coordinate and a clear sign
bit; an affine point by its x coordinate and the parity of y. -/
def compress (g : GroupElement) : Compressed :=
  match g.val with
  | none => (⟨0, by decide⟩, false, true)
  | some (x, y) => (Fin.castLE (by decide) x, yParity y, false)

/-- `CompressedGroup::decompress` (modelled from the spec): validating
decompression — rejects a set infinity flag with a nonzero coordinate or
wrong sign bit, coordinates outside the field, and x values not on the
curve; recovers the unique y with the requested parity otherwise. -/
def decompress (c : Compressed) : Option GroupElement :=
  if c.2.2 then
    if c.1.val = 0 ∧ c.2.1 = false then some ⟨none, rfl⟩ else none
  else
    if hx : c.1.val < 13 then
      let x : Fq := ⟨c.1.val, hx⟩
      match (List.finRange 13).find? (fun y => validPoint (some (x, y)) && (yParity y == c.2.1)) with
      | some y =>
        if hv : validPoint (some (x, y)) = true then some ⟨some (x, y), hv⟩ else none
      | none => none
    else none

/-- Modelled from the spec: the abstract group capability set the
multi-scalar multiplication is defined over (addition, identity, scalar
multiplication). -/
structure GroupModel (G : Type) (S : Type) where
  add : G → G → G
  zero : G
  smul : S → G → G

/-- `Group::vartime_multiscalar_mul` (modelled from the spec): accumulate
scalars[i] * bases[i] left to right from the identity. -/
def vartime_multiscalar_mul {G S : Type} (M : GroupModel G S)
    (scalars : List S) (bases : List G) : G :=
  (scalars.zip bases).foldl (fun acc sb => M.add acc (M.smul sb.1 sb.2)) M.zero

/-- The naive sum of the individual scalar multiplications, the reference
the specification compares `vartime_multiscalar_mul` against. -/
def naiveSum {G S : Type} (M : GroupModel G S) : List S → List G → G
  | s :: ss, b :: bs => M.add (M.smul s b) (naiveSum M ss bs)
  | _, _ => M.zero

/-- An injective encoding of a byte label, modelling an ideal collision-free
derivation seed. -/
def encodeList : List Nat → Nat
  | [] => 0
  | a :: l => Nat.pair a (encodeList l) + 1

/-- `Group::from_label` (modelled from the spec): deterministically derive n
preprocessed generators from a domain-separation label via an ideal
(collision-free) hash-to-curve, the i-th generator a pure function of the
label and i.  Preprocessed group elements are modelled as opaque handles. -/
def from_label (label : List Nat) (n : Nat) : List Nat :=
  (List.range n).map (fun i => Nat.pair (encodeList label) i)

/-- Mixing a byte sequence into a running hash accumulator (toy transcript
hash). -/
def mixList (a : Nat) (l : List Nat) : Nat :=
  l.foldl (fun x b => (x * 31 + b + 1) % 10007) a

/-- `ChallengeTrait::challenge` (modelled from the spec): derive a scalar as
a pure function of the label and the transcript log appended so far; the
transcript comes back unchanged (no hidden mutable counters). -/
def challenge (label : List Nat) (t : Transcript) : Fr × Transcript :=
  (⟨(t.log.foldl (fun a m => mixList (mixList a m.1) m.2) (mixList 7 label)) % 11,
    Nat.mod_lt _ (by decide)⟩, t)

/-- The state semantics of calling `get_challenge(&self)`: the shared
receiver is returned unchanged alongside the result. -/
def HashFunc.readChallenge (h : HashFunc) : Fr × HashFunc := (h.get_challenge, h)

/-- The state semantics of calling `get_hash(&self)`. -/
def HashFunc.readHash (h : HashFunc) : Fr × HashFunc := (h.get_hash, h)

/-- n successive `get_challenge` calls, threading the state. -/
def repeatChallenges : Nat → HashFunc → List Fr × HashFunc
  | 0, h => ([], h)
  | n + 1, h =>
    let p := h.readChallenge
    let q := repeatChallenges n p.2
    (p.1 :: q.1, q.2)

/-- n successive `get_hash` calls, threading the state. -/
def repeatHashes : Nat → HashFunc → List Fr × HashFunc
  | 0, h => ([], h)
  | n + 1, h =>
    let p := h.readHash
    let q := repeatHashes n p.2
    (p.1 :: q.1, q.2)

lemma absorbList_native_eq : ∀ (es : List Fq) (h : HashFunc),
    HashFunc.absorbList h es = ⟨h.constants, h.state ++ es⟩ := by
  intro es
  induction es with
  | nil => intro h; simp [HashFunc.absorbList]
  | cons e es ih =>
    intro h
    show HashFunc.absorbList (h.absorb e) es = _
    rw [ih]
    simp [HashFunc.absorb]

lemma absorbList_circuit_eq : ∀ (es : List AllocatedNum) (h : HashFuncCircuit),
    HashFuncCircuit.absorbList h es = ⟨h.constants, h.state ++ es⟩ := by
  intro es
  induction es with
  | nil => intro h; simp [HashFuncCircuit.absorbList]
  | cons e es ih =>
    intro h
    show HashFuncCircuit.absorbList (h.absorb e) es = _
    rw [ih]
    simp [HashFuncCircuit.absorb]

lemma natToBits_length : ∀ (k n : Nat), (natToBits k n).length = k
  | 0, _ => rfl
  | k + 1, n => by simp [natToBits, natToBits_length k]

lemma allocBitList_ok : ∀ (bs : List Bool) (cs : CS), bs.length ≤ cs.budget →
    allocBitList cs bs = .ok (bs.map AllocatedBit.mk, ⟨cs.budget - bs.length, cs.err⟩) := by
  intro bs
  induction bs with
  | nil => intro cs _; simp [allocBitList]
  | cons b rest ih =>
    intro cs hlen
    simp only [List.length_cons] at hlen
    obtain ⟨k, hk⟩ : ∃ k, cs.budget = k + 1 := ⟨cs.budget - 1, by omega⟩
    have ihk := ih ⟨k, cs.err⟩ (by simp; omega)
    simp only [allocBitList, CS.allocBit, hk, ihk]
    have : k - rest.length = cs.budget - (rest.length + 1) := by omega
    simp [this]

lemma allocBitList_err : ∀ (bs : List Bool) (cs : CS), cs.budget < bs.length →
    allocBitList cs bs = .error cs.err := by
  intro bs
  induction bs with
  | nil => intro cs h; simp at h
  | cons b rest ih =>
    intro cs hlen
    simp only [List.length_cons] at hlen
    match hk : cs.budget with
    | 0 => simp [allocBitList, CS.allocBit, hk]
    | k + 1 =>
      have ihk := ih ⟨k, cs.err⟩ (by simp; omega)
      simp [allocBitList, CS.allocBit, hk, ihk]

lemma allocBitList_values : ∀ (bs : List Bool) (cs : CS) (rs : List AllocatedBit) (cs1 : CS),
    allocBitList cs bs = .ok (rs, cs1) → rs.map AllocatedBit.value = bs := by
  intro bs
  induction bs with
  | nil =>
    intro cs rs cs1 h
    simp [allocBitList] at h
    simp [h.1]
  | cons b rest ih =>
    intro cs rs cs1 h
    match hk : cs.budget with
    | 0 => simp [allocBitList, CS.allocBit, hk] at h
    | k + 1 =>
      simp only [allocBitList, CS.allocBit, hk] at h
      match hrec : allocBitList ⟨k, cs.err⟩ rest with
      | .error e => simp [hrec] at h
      | .ok (rs2, cs2) =>
        simp only [hrec] at h
        obtain ⟨h1, _⟩ := Prod.mk.injEq .. ▸ (Except.ok.injEq .. ▸ h)
        subst h1
        simp [ih ⟨k, cs.err⟩ rs2 cs2 hrec]

lemma bitsToNat_natToBits_fr : ∀ v : Fr, bitsToNat (natToBits numBits v.val) = v.val := by
  decide

lemma foldl_add_eq {G S : Type} (M : GroupModel G S)
    (hassoc : ∀ a b c, M.add (M.add a b) c = M.add a (M.add b c))
    (hzr : ∀ a, M.add a M.zero = a) :
    ∀ (l : List (S × G)) (a : G),
      l.foldl (fun acc sb => M.add acc (M.smul sb.1 sb.2)) a
        = M.add a (l.foldr (fun sb r => M.add (M.smul sb.1 sb.2) r) M.zero) := by
  intro l
  induction l with
  | nil => intro a; simp [hzr]
  | cons x l ih =>
    intro a
    simp only [List.foldl_cons, List.foldr_cons]
    rw [ih, hassoc]

lemma naiveSum_eq_foldr {G S : Type} (M : GroupModel G S) :
    ∀ (ss : List S) (bs : List G),
      naiveSum M ss bs
        = (ss.zip bs).foldr (fun sb r => M.add (M.smul sb.1 sb.2) r) M.zero := by
  intro ss
  induction ss with
  | nil => intro bs; simp [naiveSum]
  | cons s ss ih =>
    intro bs
    cases bs with
    | nil => simp [naiveSum]
    | cons b bs => simp [naiveSum, List.zip_cons_cons, ih]

lemma encodeList_inj : ∀ l1 l2 : List Nat, encodeList l1 = encodeList l2 → l1 = l2 := by
  intro l1
  induction l1 with
  | nil =>
    intro l2 h
    cases l2 with
    | nil => rfl
    | cons b m => simp [encodeList] at h
  | cons a l ih =>
    intro l2 h
    cases l2 with
    | nil => simp [encodeList] at h
    | cons b m =>
      simp only [encodeList, Nat.add_right_cancel_iff] at h
      obtain ⟨hab, hlm⟩ := Nat.pair_eq_pair.mp h
      rw [hab, ih m hlm]

/-- A concrete instance of the abstract group capability set, used to
instantiate the multi-scalar-multiplication law: the additive group of
integers modulo 11 with multiplication as scalar action. -/
def finModel : GroupModel (Fin 11) (Fin 11) :=
  ⟨fun a b => a + b, 0, fun s b => s * b⟩

lemma map_value_mk : ∀ es : List Fq, (es.map AllocatedNum.mk).map AllocatedNum.value = es
  | [] => rfl
  | e :: es => by rw [List.map_cons, List.map_cons, map_value_mk es]

lemma circuit_digest_eq (c : Constants) (es : List Fq) (i : Fq) :
    digest (HashFuncCircuit.absorbList (HashFuncCircuit.new c) (es.map AllocatedNum.mk)).constants i
        ((HashFuncCircuit.absorbList (HashFuncCircuit.new c) (es.map AllocatedNum.mk)).state.map
          AllocatedNum.value)
      = digest c i es := by
  rw [absorbList_circuit_eq]
  show digest c i ((([] : List AllocatedNum) ++ es.map AllocatedNum.mk).map AllocatedNum.value)
      = digest c i es
  rw [List.nil_append, map_value_mk]

lemma native_challenge_eq (c : Constants) (es : List Fq) :
    (HashFunc.absorbList (HashFunc.new c) es).get_challenge = toScalar (digest c 0 es) := by
  rw [absorbList_native_eq]
  simp [HashFunc.get_challenge, HashFunc.new]

lemma native_hash_eq (c : Constants) (es : List Fq) :
    (HashFunc.absorbList (HashFunc.new c) es).get_hash = toScalar (digest c 1 es) := by
  rw [absorbList_native_eq]
  simp [HashFunc.get_hash, HashFunc.new]

lemma HashFuncCircuit.get_challenge_ok {h : HashFuncCircuit} {cs : CS}
    {out : List AllocatedBit × CS × HashFuncCircuit} (hout : h.get_challenge cs = .ok out) :
    out.1.map AllocatedBit.value
        = natToBits numBits (toScalar (digest h.constants 0 (h.state.map AllocatedNum.value))).val
      ∧ out.2.2 = h := by
  unfold HashFuncCircuit.get_challenge at hout
  split at hout
  · exact absurd hout (by simp)
  · rename_i bs cs1 heq
    obtain rfl : (bs, cs1, h) = out := by simpa using hout
    exact ⟨allocBitList_values _ cs bs cs1 heq, rfl⟩

lemma HashFuncCircuit.get_hash_ok {h : HashFuncCircuit} {cs : CS}
    {out : List AllocatedBit × CS × HashFuncCircuit} (hout : h.get_hash cs = .ok out) :
    out.1.map AllocatedBit.value
        = natToBits numBits (toScalar (digest h.constants 1 (h.state.map AllocatedNum.value))).val
      ∧ out.2.2 = h := by
  unfold HashFuncCircuit.get_hash at hout
  split at hout
  · exact absurd hout (by simp)
  · rename_i bs cs1 heq
    obtain rfl : (bs, cs1, h) = out := by simpa using hout
    exact ⟨allocBitList_values _ cs bs cs1 heq, rfl⟩

lemma HashFuncCircuit.get_challenge_split (h : HashFuncCircuit) (cs : CS) :
    (cs.budget < numBits → h.get_challenge cs = .error cs.err)
      ∧ (numBits ≤ cs.budget →
          h.get_challenge cs
            = .ok ((natToBits numBits
                (toScalar (digest h.constants 0 (h.state.map AllocatedNum.value))).val).map
                  AllocatedBit.mk,
                ⟨cs.budget - numBits, cs.err⟩, h)) := by
  constructor
  · intro hlt
    unfold HashFuncCircuit.get_challenge
    rw [allocBitList_err _ cs (by rw [natToBits_length]; exact hlt)]
  · intro hle
    unfold HashFuncCircuit.get_challenge
    rw [allocBitList_ok _ cs (by rw [natToBits_length]; exact hle)]
    rw [natToBits_length]

lemma HashFuncCircuit.get_hash_split (h : HashFuncCircuit) (cs : CS) :
    (cs.budget < numBits → h.get_hash cs = .error cs.err)
      ∧ (numBits ≤ cs.budget →
          h.get_hash cs
            = .ok ((natToBits numBits
                (toScalar (digest h.constants 1 (h.state.map AllocatedNum.value))).val).map
                  AllocatedBit.mk,
                ⟨cs.budget - numBits, cs.err⟩, h)) := by
  constructor
  · intro hlt
    unfold HashFuncCircuit.get_hash
    rw [allocBitList_err _ cs (by rw [natToBits_length]; exact hlt)]
  · intro hle
    unfold HashFuncCircuit.get_hash
    rw [allocBitList_ok _ cs (by rw [natToBits_length]; exact hle)]
    rw [natToBits_length]

/-- C2: for every valid group element g, decompressing the result of
compressing g returns some g — `decompress(compress(g)) == Some(g)`. -/
theorem c2_compress_decompress_roundtrip :
    ∀ g : GroupElement, decompress (compress g) = some g := by
  decide

set_option maxRecDepth 4000 in
/-- C4: every encoding that is not the canonical compression of a valid
group element (off-curve x, coordinate outside the field, or wrong sign bit
with the identity) decompresses to none, and every compressed encoding
decompresses to at most one group element. -/
theorem c4_decompress_rejects_invalid :
    ∀ c : Compressed,
      ((¬ ∃ g : GroupElement, compress g = c) → decompress c = none)
        ∧ ∀ g g' : GroupElement, decompress c = some g → decompress c = some g' → g = g' := by
  have hall : ∀ c : Compressed, (∃ g : GroupElement, compress g = c) ∨ decompress c = none := by
    decide
  have huniq : ∀ c : Compressed, ∀ g g' : GroupElement,
      decompress c = some g → decompress c = some g' → g = g' := by
    decide
  intro c
  exact ⟨fun hne => (hall c).resolve_left hne, huniq c⟩

/-- Witness for C4: the identity encoded with a wrong sign bit is rejected,
and the canonical encoding of the point (1, 2) decompresses uniquely. -/
theorem c4_witness :
    decompress ((0 : Fin 16), true, true) = none
      ∧ (⟨some (1, 2), by decide⟩ : GroupElement) = ⟨some (1, 2), by decide⟩ :=
  ⟨(c4_decompress_rejects_invalid ((0 : Fin 16), true, true)).1 (by decide),
   (c4_decompress_rejects_invalid ((1 : Fin 16), false, false)).2
     ⟨some (1, 2), by decide⟩ ⟨some (1, 2), by decide⟩ (by decide) (by decide)⟩

/-- C3: for equal-length scalar and base sequences, vartime_multiscalar_mul
equals the naive sum of the individual scalar multiplications; the empty
input yields the group identity and a length-1 input yields
scalars[0] * bases[0]. -/
theorem c3_multiscalar_mul_naive_sum {G S : Type} (M : GroupModel G S)
    (hassoc : ∀ a b c, M.add (M.add a b) c = M.add a (M.add b c))
    (hzl : ∀ a, M.add M.zero a = a)
    (hzr : ∀ a, M.add a M.zero = a)
    (scalars : List S) (bases : List G) (_hlen : scalars.length = bases.length) :
    vartime_multiscalar_mul M scalars bases = naiveSum M scalars bases
      ∧ vartime_multiscalar_mul M ([] : List S) ([] : List G) = M.zero
      ∧ ∀ s b, vartime_multiscalar_mul M [s] [b] = M.smul s b := by
  refine ⟨?_, rfl, fun s b => ?_⟩
  · rw [vartime_multiscalar_mul, foldl_add_eq M hassoc hzr, hzl, naiveSum_eq_foldr]
  · show M.add M.zero (M.smul s b) = M.smul s b
    exact hzl _

/-- Witness for C3 at the additive group of integers modulo 11. -/
theorem c3_witness :
    vartime_multiscalar_mul finModel [2, 3] [5, 7] = naiveSum finModel [2, 3] [5, 7]
      ∧ vartime_multiscalar_mul finModel ([] : List (Fin 11)) ([] : List (Fin 11)) = finModel.zero
      ∧ vartime_multiscalar_mul finModel [4] [6] = finModel.smul 4 6 :=
  ⟨(c3_multiscalar_mul_naive_sum finModel (by decide) (by decide) (by decide)
      [2, 3] [5, 7] rfl).1,
   (c3_multiscalar_mul_naive_sum finModel (by decide) (by decide) (by decide)
      [2, 3] [5, 7] rfl).2.1,
   (c3_multiscalar_mul_naive_sum finModel (by decide) (by decide) (by decide)
      [4] [6] rfl).2.2 4 6⟩

/-- C5: deriving a challenge is a pure function of the label and the log of
appended messages — the transcript is unchanged by the call, a second call
on the resulting state returns the same scalar, and transcripts with equal
logs yield equal challenges. -/
theorem c5_challenge_deterministic_idempotent (label : List Nat) (t t' : Transcript) :
    (challenge label t).2 = t
      ∧ (challenge label ((challenge label t).2)).1 = (challenge label t).1
      ∧ (t.log = t'.log → (challenge label t).1 = (challenge label t').1) := by
  refine ⟨rfl, rfl, fun hlog => ?_⟩
  cases t
  cases t'
  simp only at hlog
  subst hlog
  rfl

/-- Witness for C5 on a concrete transcript. -/
theorem c5_witness :
    (challenge [5] ⟨[([1], [2])]⟩).2 = (⟨[([1], [2])]⟩ : Transcript)
      ∧ (challenge [5] ⟨[([1], [2])]⟩).1 = (challenge [5] ⟨[([1], [2])]⟩).1 :=
  ⟨(c5_challenge_deterministic_idempotent [5] ⟨[([1], [2])]⟩ ⟨[([1], [2])]⟩).1,
   (c5_challenge_deterministic_idempotent [5] ⟨[([1], [2])]⟩ ⟨[([1], [2])]⟩).2.2 rfl⟩

/-- C6: get_challenge and get_hash are repeatable reads — n successive
native calls leave the state unchanged and all return the same scalar, and
a successful circuit-mode call returns the unchanged state, a second call on
it returning the same bit values. -/
theorem c6_repeatable_read :
    (∀ (n : Nat) (h : HashFunc),
        repeatChallenges n h = (List.replicate n h.get_challenge, h))
      ∧ (∀ (n : Nat) (h : HashFunc),
        repeatHashes n h = (List.replicate n h.get_hash, h))
      ∧ (∀ (h : HashFuncCircuit) (cs cs2 : CS)
          (out out2 : List AllocatedBit × CS × HashFuncCircuit),
          h.get_challenge cs = .ok out →
            out.2.2 = h
              ∧ (HashFuncCircuit.get_challenge out.2.2 cs2 = .ok out2 →
                  out2.1.map AllocatedBit.value = out.1.map AllocatedBit.value))
      ∧ (∀ (h : HashFuncCircuit) (cs cs2 : CS)
          (out out2 : List AllocatedBit × CS × HashFuncCircuit),
          h.get_hash cs = .ok out →
            out.2.2 = h
              ∧ (HashFuncCircuit.get_hash out.2.2 cs2 = .ok out2 →
                  out2.1.map AllocatedBit.value = out.1.map AllocatedBit.value)) := by
  refine ⟨?_, ?_, ?_, ?_⟩
  · intro n
    induction n with
    | zero => intro h; rfl
    | succ n ih =>
      intro h
      simp [repeatChallenges, HashFunc.readChallenge, ih h, List.replicate_succ]
  · intro n
    induction n with
    | zero => intro h; rfl
    | succ n ih =>
      intro h
      simp [repeatHashes, HashFunc.readHash, ih h, List.replicate_succ]
  · intro h cs cs2 out out2 hout
    obtain ⟨hv, hs⟩ := HashFuncCircuit.get_challenge_ok hout
    refine ⟨hs, fun hout2 => ?_⟩
    obtain ⟨hv2, _⟩ := HashFuncCircuit.get_challenge_ok hout2
    rw [hs] at hv2
    rw [hv2, hv]
  · intro h cs cs2 out out2 hout
    obtain ⟨hv, hs⟩ := HashFuncCircuit.get_hash_ok hout
    refine ⟨hs, fun hout2 => ?_⟩
    obtain ⟨hv2, _⟩ := HashFuncCircuit.get_hash_ok hout2
    rw [hs] at hv2
    rw [hv2, hv]

/-- Witness for C6: three reads on a concrete native state, and a concrete
successful circuit read repeated on the returned state. -/
theorem c6_witness :
    repeatChallenges 3 (HashFunc.new ⟨[1, 2]⟩)
        = (List.replicate 3 (HashFunc.new ⟨[1, 2]⟩).get_challenge, HashFunc.new ⟨[1, 2]⟩)
      ∧ ((List.replicate 4 (AllocatedBit.mk false), (⟨1, SynthesisError.unsatisfiable⟩ : CS),
          HashFuncCircuit.new ⟨[]⟩) :
            List AllocatedBit × CS × HashFuncCircuit).2.2 = HashFuncCircuit.new ⟨[]⟩
      ∧ (List.replicate 4 (AllocatedBit.mk false)).map AllocatedBit.value
          = (List.replicate 4 (AllocatedBit.mk false)).map AllocatedBit.value := by
  have base := c6_repeatable_read.2.2.1 (HashFuncCircuit.new ⟨[]⟩)
      ⟨5, .unsatisfiable⟩ ⟨4, .assignmentMissing⟩
      (List.replicate 4 (AllocatedBit.mk false), ⟨1, .unsatisfiable⟩, HashFuncCircuit.new ⟨[]⟩)
      (List.replicate 4 (AllocatedBit.mk false), ⟨0, .assignmentMissing⟩, HashFuncCircuit.new ⟨[]⟩)
      rfl
  exact ⟨c6_repeatable_read.1 3 (HashFunc.new ⟨[1, 2]⟩), base.1, base.2 rfl⟩

/-- C7: the slice adapter appends its elements one by one in sequence order,
each serialized to its canonical byte form under the given label, and the
random-oracle absorption of a sequence folds the elements into the state in
the same order. -/
theorem c7_elementwise_canonical_append (xs : List Fq) (label : List Nat)
    (t : Transcript) (h : HashFunc) :
    (append_to_transcript_slice xs label t).log
        = t.log ++ xs.map (fun x => (label, fieldRepr x.val))
      ∧ HashFunc.absorbList h xs = ⟨h.constants, h.state ++ xs⟩ :=
  ⟨append_to_transcript_slice_log xs label t, absorbList_native_eq xs h⟩

/-- C8 (counterexample): with n = 0 two distinct labels yield identical
(empty) generator sequences, so the claim as stated fails at n = 0. -/
theorem c8_counterexample :
    from_label [0] 0 = from_label [1] 0 ∧ ([0] : List Nat) ≠ [1] :=
  ⟨rfl, by decide⟩

/-- C8 (amended): from_label is deterministic, and for every n ≥ 1 two
distinct labels yield generator sequences differing in at least one
generator. -/
theorem c8_from_label_deterministic (l1 l2 : List Nat) (n : Nat) :
    from_label l1 n = from_label l1 n
      ∧ (1 ≤ n → l1 ≠ l2 → from_label l1 n ≠ from_label l2 n) := by
  refine ⟨rfl, fun hn hne heq => hne ?_⟩
  obtain ⟨m, rfl⟩ : ∃ m, n = m + 1 := ⟨n - 1, by omega⟩
  rw [from_label, from_label, List.range_succ_eq_map, List.map_cons, List.map_cons] at heq
  injection heq with hhead _
  exact encodeList_inj l1 l2 (Nat.pair_eq_pair.mp hhead).1

/-- Witness for C8 at labels [0] and [1] with n = 1. -/
theorem c8_witness :
    from_label [0] 1 = from_label [0] 1 ∧ from_label [0] 1 ≠ from_label [1] 1 :=
  ⟨(c8_from_label_deterministic [0] [1] 1).1,
   (c8_from_label_deterministic [0] [1] 1).2 (by decide) (by decide)⟩

/-- C9: circuit-mode get_challenge and get_hash take the constraint-system
capability as an explicit parameter and return an explicit failure result:
when the constraint system reports a construction failure, that exact
failure is returned unchanged; on success, a sequence of allocated bit
variables is returned. -/
theorem c9_error_propagation_unchanged (h : HashFuncCircuit) (cs : CS) :
    ((cs.budget < numBits → h.get_challenge cs = .error cs.err)
      ∧ (numBits ≤ cs.budget →
          h.get_challenge cs
              = .ok ((natToBits numBits (toScalar (digest h.constants 0
                    (h.state.map AllocatedNum.value))).val).map AllocatedBit.mk,
                  ⟨cs.budget - numBits, cs.err⟩, h)
            ∧ ((natToBits numBits (toScalar (digest h.constants 0
                  (h.state.map AllocatedNum.value))).val).map AllocatedBit.mk).length = numBits))
    ∧ ((cs.budget < numBits → h.get_hash cs = .error cs.err)
      ∧ (numBits ≤ cs.budget →
          h.get_hash cs
              = .ok ((natToBits numBits (toScalar (digest h.constants 1
                    (h.state.map AllocatedNum.value))).val).map AllocatedBit.mk,
                  ⟨cs.budget - numBits, cs.err⟩, h)
            ∧ ((natToBits numBits (toScalar (digest h.constants 1
                  (h.state.map AllocatedNum.value))).val).map AllocatedBit.mk).length
                = numBits)) := by
  refine ⟨⟨(HashFuncCircuit.get_challenge_split h cs).1, fun hle => ?_⟩,
          ⟨(HashFuncCircuit.get_hash_split h cs).1, fun hle => ?_⟩⟩
  · exact ⟨(HashFuncCircuit.get_challenge_split h cs).2 hle,
      by rw [List.length_map, natToBits_length]⟩
  · exact ⟨(HashFuncCircuit.get_hash_split h cs).2 hle,
      by rw [List.length_map, natToBits_length]⟩

/-- Witness for C9: a budget of 2 fails with the collaborator's exact error,
a budget of 9 succeeds with 4 allocated bits. -/
theorem c9_witness :
    (HashFuncCircuit.new ⟨[]⟩).get_challenge ⟨2, .assignmentMissing⟩
        = .error SynthesisError.assignmentMissing
      ∧ ((HashFuncCircuit.new ⟨[]⟩).get_hash ⟨9, .unsatisfiable⟩
            = .ok ([AllocatedBit.mk true, AllocatedBit.mk false, AllocatedBit.mk false,
                AllocatedBit.mk false], ⟨5, .unsatisfiable⟩, HashFuncCircuit.new ⟨[]⟩)
          ∧ ([AllocatedBit.mk true, AllocatedBit.mk false, AllocatedBit.mk false,
              AllocatedBit.mk false] : List AllocatedBit).length = numBits) :=
  ⟨(c9_error_propagation_unchanged (HashFuncCircuit.new ⟨[]⟩)
      ⟨2, .assignmentMissing⟩).1.1 (by decide),
   (c9_error_propagation_unchanged (HashFuncCircuit.new ⟨[]⟩)
      ⟨9, .unsatisfiable⟩).2.2 (by decide)⟩

/-- C10: the slice adapter appends every element under the same label, so
appending a concatenation xs ++ ys equals appending xs and then ys, and a
one-element slice appends exactly as the element itself. -/
theorem c10_slice_append_concat (xs ys : List Fq) (x : Fq) (label : List Nat) (t : Transcript) :
    append_to_transcript_slice (xs ++ ys) label t
        = append_to_transcript_slice ys label (append_to_transcript_slice xs label t)
      ∧ append_to_transcript_slice [x] label t = append_to_transcript x label t :=
  ⟨append_to_transcript_slice_append xs ys label t, rfl⟩

/-- C1: absorbing the same sequence of base-field elements into the native
random oracle and (lifted to allocated variables) into the circuit-mode
random oracle built from the same constants yields equivalent outputs: the
bit values returned by the circuit get_challenge (resp. get_hash) are the
bit-decomposition of the scalar returned by the native get_challenge
(resp. get_hash), and decode back to it. -/
theorem c1_native_circuit_equivalence (c : Constants) (es : List Fq) (cs cs2 : CS) :
    (∀ out : List AllocatedBit × CS × HashFuncCircuit,
        (HashFuncCircuit.absorbList (HashFuncCircuit.new c)
            (es.map AllocatedNum.mk)).get_challenge cs = .ok out →
          out.1.map AllocatedBit.value
              = natToBits numBits ((HashFunc.absorbList (HashFunc.new c) es).get_challenge).val
            ∧ bitsToNat (out.1.map AllocatedBit.value)
              = ((HashFunc.absorbList (HashFunc.new c) es).get_challenge).val)
      ∧ (∀ out : List AllocatedBit × CS × HashFuncCircuit,
        (HashFuncCircuit.absorbList (HashFuncCircuit.new c)
            (es.map AllocatedNum.mk)).get_hash cs2 = .ok out →
          out.1.map AllocatedBit.value
              = natToBits numBits ((HashFunc.absorbList (HashFunc.new c) es).get_hash).val
            ∧ bitsToNat (out.1.map AllocatedBit.value)
              = ((HashFunc.absorbList (HashFunc.new c) es).get_hash).val) := by
  constructor
  · intro out hout
    obtain ⟨hv, _⟩ := HashFuncCircuit.get_challenge_ok hout
    rw [circuit_digest_eq] at hv
    refine ⟨?_, ?_⟩
    · rw [native_challenge_eq]
      exact hv
    · rw [native_challenge_eq, hv]
      exact bitsToNat_natToBits_fr (toScalar (digest c 0 es))
  · intro out hout
    obtain ⟨hv, _⟩ := HashFuncCircuit.get_hash_ok hout
    rw [circuit_digest_eq] at hv
    refine ⟨?_, ?_⟩
    · rw [native_hash_eq]
      exact hv
    · rw [native_hash_eq, hv]
      exact bitsToNat_natToBits_fr (toScalar (digest c 1 es))

/-- Witness for C1: the concrete scenario — absorb [3, 7, 2] with round
constants [1, 2]; the circuit challenge bits are the bit-decomposition of
the native challenge scalar and decode back to it. -/
theorem c1_witness :
    ([AllocatedBit.mk false, AllocatedBit.mk true, AllocatedBit.mk false,
        AllocatedBit.mk false].map AllocatedBit.value
        = natToBits numBits
            ((HashFunc.absorbList (HashFunc.new ⟨[1, 2]⟩) [3, 7, 2]).get_challenge).val)
      ∧ bitsToNat ([AllocatedBit.mk false, AllocatedBit.mk true, AllocatedBit.mk false,
          AllocatedBit.mk false].map AllocatedBit.value)
        = ((HashFunc.absorbList (HashFunc.new ⟨[1, 2]⟩) [3, 7, 2]).get_challenge).val :=
  (c1_native_circuit_equivalence ⟨[1, 2]⟩ [3, 7, 2] ⟨10, .unsatisfiable⟩
      ⟨10, .unsatisfiable⟩).1
    ([⟨false⟩, ⟨true⟩, ⟨false⟩, ⟨false⟩], ⟨6, .unsatisfiable⟩,
      ⟨⟨[1, 2]⟩, [⟨3⟩, ⟨7⟩, ⟨2⟩]⟩) rfl

end Nova
